import Mathlib

/-
Verification of the text-normalization, fuzzy-matching, masking and
interval-merging core of the censorr repository.

Strings are modelled as lists of Unicode code points (List Nat), exactly the
view Python exposes: a str is a sequence of code points.  The character
classifiers model the ASCII fragment of Python's str / re classifiers; the
Unicode decomposition table (unicodedata NFKD plus combining-mark removal) is
modelled by a finite table that is the identity outside the characters
exercised here.  Floating point times and scores are modelled as rationals.
-/

namespace Censorr

/-- Python strings viewed as sequences of code points. -/
abbrev Str := List Nat

/-- Converts a Lean string literal to its code-point list. -/
def str (s : String) : Str := s.data.map Char.toNat

/-- Model of the whitespace class (ASCII fragment of Python regex class backslash-s). -/
def isSpaceB (c : Nat) : Bool := c = 32 || (9 ≤ c && c ≤ 13)

/-- Model of the decimal digit class (Python regex class backslash-d, ASCII). -/
def isDigitB (c : Nat) : Bool := 48 ≤ c && c ≤ 57

/-- ASCII uppercase letters. -/
def isUpperB (c : Nat) : Bool := 65 ≤ c && c ≤ 90

/-- ASCII lowercase letters. -/
def isLowerB (c : Nat) : Bool := 97 ≤ c && c ≤ 122

/-- ASCII letters. -/
def isAlphaB (c : Nat) : Bool := isUpperB c || isLowerB c

/-- Model of the word-character class (Python regex class backslash-w, ASCII fragment):
letters, digits, underscore. -/
def isWordB (c : Nat) : Bool := isAlphaB c || isDigitB c || c = 95

/-- Model of str.lower (ASCII fragment). -/
def lowerChar (c : Nat) : Nat := if isUpperB c then c + 32 else c

/-- Finite model of the unicodedata NFKD decomposition table: the accented letter
e-acute (233) decomposes into e (101) followed by the combining acute accent (769);
every other modelled code point decomposes to itself. -/
def decomposeChar (c : Nat) : Str := if c = 233 then [101, 769] else [c]

/-- Finite model of unicodedata.combining: the combining acute accent (769) is the
only combining mark in the modelled table. -/
def combiningB (c : Nat) : Bool := c = 769

/-- Model of NFKD decomposition followed by removal of combining marks
(fuzzy.py lines 54-55). -/
def nfkdStrip (s : Str) : Str :=
  ((s.map decomposeChar).flatten).filter (fun c => !combiningB c)

/-- Model of re.sub over a single-character class replaced by one space per maximal
run of matching characters: this is re.sub of (class)+ with one space.  With the
run flag false it models the digit-run substitution of fuzzy.py line 58 and the
whitespace collapse of line 59. -/
def subRuns (p : Nat → Bool) : Bool → Str → Str
  | _, [] => []
  | inRun, c :: cs =>
      if p c then (if inRun then subRuns p true cs else 32 :: subRuns p true cs)
      else c :: subRuns p false cs

/-- Removes trailing whitespace. -/
def trimRight : Str → Str
  | [] => []
  | c :: cs => if trimRight cs = [] ∧ isSpaceB c then [] else c :: trimRight cs

/-- Model of str.strip: removes leading and trailing whitespace. -/
def trim (s : Str) : Str := trimRight (s.dropWhile isSpaceB)

/-- Model of the character substitution of fuzzy.py line 56: hyphen (45),
underscore (95) and apostrophe (39) become a space. -/
def dashToSpace (c : Nat) : Nat := if c = 45 ∨ c = 95 ∨ c = 39 then 32 else c

/-- Model of the character substitution of fuzzy.py line 57: every character that
is neither a word character nor whitespace becomes a space. -/
def punctToSpace (c : Nat) : Nat :=
  if isWordB c = false ∧ isSpaceB c = false then 32 else c

/-- Stages of SimpleFuzzyMatcher.normalize up to and including digit-run
substitution (fuzzy.py lines 53-58). -/
def normCore (s : Str) : Str :=
  subRuns isDigitB false
    (((nfkdStrip (s.map lowerChar)).map dashToSpace).map punctToSpace)

/-- Model of SimpleFuzzyMatcher.normalize (fuzzy.py lines 50-60): lowercase, NFKD
decomposition with combining-mark removal, hyphen/underscore/apostrophe to space,
remaining punctuation to space, digit runs to space, whitespace-run collapse,
strip. -/
def normalize (s : Str) : Str := trim (subRuns isSpaceB false (normCore s))

/-- Splits into whitespace-delimited words, accumulating the current word in
reverse; models str.split with no arguments. -/
def wordsAux : Str → Str → List Str
  | [], acc => if acc = [] then [] else [acc.reverse]
  | c :: cs, acc =>
      if isSpaceB c then
        (if acc = [] then wordsAux cs [] else acc.reverse :: wordsAux cs [])
      else wordsAux cs (c :: acc)

/-- Model of str.split with no arguments: maximal runs of non-whitespace. -/
def wordsOf (s : Str) : List Str := wordsAux s []

/-- Joins words with single spaces; models a space-separated join. -/
def joinWords : List Str → Str
  | [] => []
  | [w] => w
  | w :: ws => w ++ 32 :: joinWords ws

/-- Reference definition of normalize following the words of spec section 4.1 as
quoted by claim C5: lowercase; Unicode decomposition and combining-mark removal;
hyphens, underscores, apostrophes to a single space; REMOVE all remaining
punctuation; REMOVE digits; collapse whitespace runs to one space and trim
(expressed as joining the whitespace-delimited words with single spaces). -/
def normalize_spec_removal (s : Str) : Str :=
  joinWords (wordsOf
    ((((nfkdStrip (s.map lowerChar)).map dashToSpace).filter
        (fun c => isWordB c || isSpaceB c)).filter (fun c => !isDigitB c)))

/-- Reference definition of normalize with the removal steps amended to what the
source does: punctuation characters are replaced by a space and digit runs are
replaced by a single space, the whitespace collapse and trim then being the join
of the whitespace-delimited words by single spaces. -/
def normalize_spec_amended (s : Str) : Str :=
  joinWords (wordsOf (normCore s))

/- Lemmas relating the collapse-and-trim pipeline to words/join. -/

theorem isSpaceB_32 : isSpaceB 32 = true := rfl

theorem subRuns_space_no_lead (l : Str) :
    List.dropWhile isSpaceB (subRuns isSpaceB true l) = subRuns isSpaceB true l := by
  induction l with
  | nil => simp [subRuns]
  | cons c cs ih =>
      by_cases h : isSpaceB c
      · simp [subRuns, h, ih]
      · simp [subRuns, h, List.dropWhile]

theorem dropWhile_subRuns_space (l : Str) :
    List.dropWhile isSpaceB (subRuns isSpaceB false l) = subRuns isSpaceB true l := by
  induction l with
  | nil => simp [subRuns]
  | cons c cs ih =>
      by_cases h : isSpaceB c
      · simp [subRuns, h, List.dropWhile, isSpaceB_32, subRuns_space_no_lead]
      · simp [subRuns, h, List.dropWhile]

theorem trimRight_cons (c : Nat) (l : Str) :
    trimRight (c :: l) = if trimRight l = [] ∧ isSpaceB c then [] else c :: trimRight l := by
  simp [trimRight]

theorem joinWords_cons2 (w w2 : Str) (rest : List Str) :
    joinWords (w :: w2 :: rest) = w ++ 32 :: joinWords (w2 :: rest) := rfl

/-- Empty words never occur in the output of wordsAux. -/
theorem wordsAux_ne_nil (l : Str) : ∀ acc, [] ∉ wordsAux l acc := by
  induction l with
  | nil =>
      intro acc
      by_cases h : acc = []
      · simp [wordsAux, h]
      · simp only [wordsAux, if_neg h, List.mem_singleton]
        intro hc
        exact h (by simpa using hc.symm)
  | cons c cs ih =>
      intro acc
      by_cases h : isSpaceB c
      · by_cases ha : acc = []
        · simpa [wordsAux, h, ha] using ih []
        · simp only [wordsAux, if_pos h, if_neg ha]
          intro hc
          rcases List.mem_cons.mp hc with h1 | h2
          · exact ha (by simpa using h1.symm)
          · exact ih [] h2
      · simpa [wordsAux, h] using ih (c :: acc)

theorem joinWords_eq_nil {ws : List Str} (h : [] ∉ ws) : joinWords ws = [] ↔ ws = [] := by
  match ws with
  | [] => simp [joinWords]
  | [w] =>
      simp only [List.mem_singleton] at h
      simp only [joinWords, List.cons_ne_nil, iff_false]
      exact fun hw => h hw.symm
  | w :: w2 :: rest => simp [joinWords]

/-- Core bridge: joining the words of a string equals collapsing whitespace runs
and stripping. -/
theorem joinWords_wordsAux (l : Str) : ∀ acc : Str,
    joinWords (wordsAux l acc) =
      if acc = [] then trimRight (subRuns isSpaceB true l)
      else acc.reverse ++ trimRight (subRuns isSpaceB false l) := by
  induction l with
  | nil =>
      intro acc
      by_cases h : acc = [] <;> simp [wordsAux, subRuns, trimRight, joinWords, h]
  | cons c cs ih =>
      intro acc
      have htail : joinWords (wordsAux cs []) = trimRight (subRuns isSpaceB true cs) := by
        simpa using ih []
      by_cases h : isSpaceB c
      · have hsub : subRuns isSpaceB false (c :: cs) = 32 :: subRuns isSpaceB true cs := by
          simp [subRuns, h]
        have hsub2 : subRuns isSpaceB true (c :: cs) = subRuns isSpaceB true cs := by
          simp [subRuns, h]
        have htr32 : trimRight (subRuns isSpaceB false (c :: cs)) =
            if trimRight (subRuns isSpaceB true cs) = [] then []
            else 32 :: trimRight (subRuns isSpaceB true cs) := by
          rw [hsub, trimRight_cons]
          by_cases ht : trimRight (subRuns isSpaceB true cs) = [] <;>
            simp [ht, isSpaceB_32]
        by_cases ha : acc = []
        · subst ha
          rw [if_pos rfl]
          have hstep : wordsAux (c :: cs) ([] : Str) = wordsAux cs [] := by
            simp [wordsAux, h]
          rw [hstep, htail, hsub2]
        · have hnil := joinWords_eq_nil (wordsAux_ne_nil cs [])
          have hstep : wordsAux (c :: cs) acc = acc.reverse :: wordsAux cs [] := by
            simp [wordsAux, h, ha]
          rw [if_neg ha, hstep, htr32]
          by_cases hw : wordsAux cs [] = []
          · have ht : trimRight (subRuns isSpaceB true cs) = [] := by
              rw [← htail, hw]; rfl
            rw [hw, if_pos ht]
            simp [joinWords]
          · have hjw : joinWords (wordsAux cs []) ≠ [] := fun hc => hw (hnil.mp hc)
            have htr : trimRight (subRuns isSpaceB true cs) ≠ [] := by
              rw [← htail]; exact hjw
            rcases List.exists_cons_of_ne_nil hw with ⟨w0, ws0, hws⟩
            rw [if_neg htr, hws, joinWords_cons2, ← hws, htail]
      · have hsub : subRuns isSpaceB false (c :: cs) = c :: subRuns isSpaceB false cs := by
          simp [subRuns, h]
        have hsub2 : subRuns isSpaceB true (c :: cs) = c :: subRuns isSpaceB false cs := by
          simp [subRuns, h]
        have htrc : trimRight (c :: subRuns isSpaceB false cs) =
            c :: trimRight (subRuns isSpaceB false cs) := by
          rw [trimRight_cons]
          simp [h]
        have hstep : wordsAux (c :: cs) acc = wordsAux cs (c :: acc) := by
          simp [wordsAux, h]
        rw [hstep, ih (c :: acc), if_neg (List.cons_ne_nil c acc)]
        by_cases ha : acc = []
        · subst ha
          rw [if_pos rfl, hsub2, htrc]
          simp
        · rw [if_neg ha, hsub, htrc]
          simp

/-- Collapse-and-strip equals join-of-words. -/
theorem trim_collapse_eq_joinWords (l : Str) :
    trim (subRuns isSpaceB false l) = joinWords (wordsOf l) := by
  have h : joinWords (wordsAux l []) = trimRight (subRuns isSpaceB true l) := by
    simpa using joinWords_wordsAux l []
  rw [wordsOf, h, trim, dropWhile_subRuns_space]

/-- Normalize is the join of the words of its core stage. -/
theorem normalize_eq_words (s : Str) : normalize s = joinWords (wordsOf (normCore s)) := by
  rw [normalize, trim_collapse_eq_joinWords]

theorem map_id_of_mem {f : Nat → Nat} : ∀ {l : Str}, (∀ c ∈ l, f c = c) → l.map f = l := by
  intro l h
  induction l with
  | nil => rfl
  | cons c cs ih =>
      simp only [List.map_cons, h c (List.mem_cons_self c cs)]
      rw [ih fun d hd => h d (List.mem_cons_of_mem c hd)]

theorem nfkdStrip_id {l : Str}
    (h : ∀ c ∈ l, decomposeChar c = [c] ∧ combiningB c = false) : nfkdStrip l = l := by
  induction l with
  | nil => rfl
  | cons c cs ih =>
      have hc := h c (List.mem_cons_self c cs)
      have ihr := ih fun d hd => h d (List.mem_cons_of_mem c hd)
      simp only [nfkdStrip, List.map_cons, List.flatten_cons, List.filter_append, hc.1] at *
      simp [List.filter_cons, hc.2, ihr]

theorem subRuns_id {p : Nat → Bool} :
    ∀ {l : Str}, (∀ c ∈ l, p c = false) → ∀ b, subRuns p b l = l := by
  intro l h
  induction l with
  | nil => intro b; rfl
  | cons c cs ih =>
      intro b
      have hc := h c (List.mem_cons_self c cs)
      simp [subRuns, hc, ih fun d hd => h d (List.mem_cons_of_mem c hd)]

theorem mem_subRuns {p : Nat → Bool} :
    ∀ {l : Str} {b : Bool} {c : Nat}, c ∈ subRuns p b l → c = 32 ∨ (c ∈ l ∧ p c = false) := by
  intro l
  induction l with
  | nil => intro b c hc; simp [subRuns] at hc
  | cons d ds ih =>
      intro b c hc
      by_cases hd : p d
      · simp only [subRuns, hd, if_pos] at hc
        rcases b with _ | _
        · rcases List.mem_cons.mp hc with h1 | h2
          · exact Or.inl h1
          · rcases ih h2 with h3 | h4
            · exact Or.inl h3
            · exact Or.inr ⟨List.mem_cons_of_mem d h4.1, h4.2⟩
        · rcases ih hc with h3 | h4
          · exact Or.inl h3
          · exact Or.inr ⟨List.mem_cons_of_mem d h4.1, h4.2⟩
      · simp only [subRuns, hd, if_neg, Bool.false_eq_true, not_false_eq_true] at hc
        rcases List.mem_cons.mp hc with h1 | h2
        · subst h1
          exact Or.inr ⟨List.mem_cons_self c ds, Bool.eq_false_iff.mpr hd⟩
        · rcases ih h2 with h3 | h4
          · exact Or.inl h3
          · exact Or.inr ⟨List.mem_cons_of_mem d h4.1, h4.2⟩

theorem mem_nfkdStrip {l : Str} {c : Nat} (hc : c ∈ nfkdStrip l) :
    combiningB c = false ∧ (c ∈ l ∨ c = 101) := by
  simp only [nfkdStrip, List.mem_filter, List.mem_flatten, List.mem_map] at hc
  rcases hc with ⟨⟨chunk, ⟨d, hd, hchunk⟩, hcchunk⟩, hcomb⟩
  refine ⟨by simpa using hcomb, ?_⟩
  subst hchunk
  by_cases hd233 : d = 233
  · simp only [decomposeChar, hd233, if_pos] at hcchunk
    rcases List.mem_cons.mp hcchunk with h1 | h2
    · exact Or.inr h1
    · simp only [List.mem_singleton] at h2
      subst h2
      simp [combiningB] at hcomb
  · simp only [decomposeChar, hd233, if_neg, not_false_eq_true, List.mem_singleton] at hcchunk
    subst hcchunk
    exact Or.inl hd

/-- Lowercasing never yields an uppercase letter. -/
theorem isUpperB_lowerChar (f : Nat) : isUpperB (lowerChar f) = false := by
  simp only [lowerChar]
  split
  · rename_i h
    simp only [isUpperB] at *
    simp only [Bool.and_eq_true, decide_eq_true_eq] at h
    simp only [Bool.and_eq_false_iff, decide_eq_false_iff_not]
    omega
  · rename_i h
    exact Bool.eq_false_iff.mpr h

/-- Characters of the core stage are spaces or lowercase letters. -/
theorem normCore_chars {s : Str} {c : Nat} (hc : c ∈ normCore s) :
    isSpaceB c = true ∨ isLowerB c = true := by
  rcases mem_subRuns hc with h32 | ⟨hc4, hnd⟩
  · exact Or.inl (h32 ▸ isSpaceB_32)
  · rcases List.mem_map.mp hc4 with ⟨d, hd, hpd⟩
    by_cases hp : isWordB d = false ∧ isSpaceB d = false
    · rw [punctToSpace, if_pos hp] at hpd
      exact Or.inl (hpd ▸ isSpaceB_32)
    · rw [punctToSpace, if_neg hp] at hpd
      rcases List.mem_map.mp hd with ⟨e, he, hde⟩
      by_cases hdash : e = 45 ∨ e = 95 ∨ e = 39
      · rw [dashToSpace, if_pos hdash] at hde
        rw [← hpd, ← hde]
        exact Or.inl isSpaceB_32
      · rw [dashToSpace, if_neg hdash] at hde
        rcases (mem_nfkdStrip he).2 with hmem | h101
        · rcases List.mem_map.mp hmem with ⟨f, _, hf⟩
          have hup : isUpperB c = false := by
            rw [← hpd, ← hde, ← hf]
            exact isUpperB_lowerChar f
          have hcd : ¬(c = 45 ∨ c = 95 ∨ c = 39) := by
            rw [← hpd, ← hde]
            exact hdash
          have hword : ¬(isWordB c = false ∧ isSpaceB c = false) := by
            rw [← hpd]
            exact hp
          have hnd2 : isDigitB c = false := hnd
          revert hword hcd hup hnd2
          simp [isWordB, isAlphaB, isUpperB, isLowerB, isDigitB, isSpaceB]
          omega
        · rw [← hpd, ← hde, h101]
          right; rfl

/-- Every character of a word of wordsAux comes from the input or the accumulator,
and word characters are never whitespace when the accumulator is clean. -/
theorem wordsAux_chars (l : Str) : ∀ acc w c, w ∈ wordsAux l acc → c ∈ w →
    (c ∈ l ∧ isSpaceB c = false) ∨ c ∈ acc := by
  induction l with
  | nil =>
      intro acc w c hw hcw
      by_cases h : acc = []
      · simp [wordsAux, h] at hw
      · simp only [wordsAux, if_neg h, List.mem_singleton] at hw
        subst hw
        exact Or.inr (List.mem_reverse.mp hcw)
  | cons d ds ih =>
      intro acc w c hw hcw
      by_cases h : isSpaceB d
      · by_cases ha : acc = []
        · simp only [wordsAux, if_pos h, ha, if_pos] at hw
          rcases ih [] w c hw hcw with ⟨h1, h2⟩ | h3
          · exact Or.inl ⟨List.mem_cons_of_mem d h1, h2⟩
          · simp at h3
        · simp only [wordsAux, if_pos h, if_neg ha] at hw
          rcases List.mem_cons.mp hw with h1 | h2
          · subst h1
            exact Or.inr (List.mem_reverse.mp hcw)
          · rcases ih [] w c h2 hcw with ⟨h1, h2⟩ | h3
            · exact Or.inl ⟨List.mem_cons_of_mem d h1, h2⟩
            · simp at h3
      · simp only [wordsAux, if_neg h] at hw
        rcases ih (d :: acc) w c hw hcw with ⟨h1, h2⟩ | h3
        · exact Or.inl ⟨List.mem_cons_of_mem d h1, h2⟩
        · rcases List.mem_cons.mp h3 with h1 | h2
          · subst h1
            exact Or.inl ⟨List.mem_cons_self _ _, Bool.eq_false_iff.mpr h⟩
          · exact Or.inr h2

/-- Characters of joined words are spaces or word characters. -/
theorem mem_joinWords {c : Nat} : ∀ {ws : List Str}, c ∈ joinWords ws →
    c = 32 ∨ ∃ w ∈ ws, c ∈ w := by
  intro ws
  match ws with
  | [] => intro hc; simp [joinWords] at hc
  | [w] =>
      intro hc
      exact Or.inr ⟨w, List.mem_singleton.mpr rfl, hc⟩
  | w :: w2 :: rest =>
      intro hc
      rw [joinWords_cons2] at hc
      rcases List.mem_append.mp hc with h1 | h2
      · exact Or.inr ⟨w, List.mem_cons_self _ _, h1⟩
      · rcases List.mem_cons.mp h2 with h3 | h4
        · exact Or.inl h3
        · rcases mem_joinWords h4 with h5 | ⟨w0, hw0, hcw0⟩
          · exact Or.inl h5
          · exact Or.inr ⟨w0, List.mem_cons_of_mem _ hw0, hcw0⟩

/-- Characters of a normalized string are spaces or lowercase letters. -/
theorem normalize_chars {s : Str} {c : Nat} (hc : c ∈ normalize s) :
    isSpaceB c = true ∨ isLowerB c = true := by
  rw [normalize_eq_words] at hc
  rcases mem_joinWords hc with h32 | ⟨w, hw, hcw⟩
  · subst h32; exact Or.inl isSpaceB_32
  · rcases wordsAux_chars (normCore s) [] w c hw hcw with ⟨h1, _⟩ | h3
    · exact normCore_chars h1
    · simp at h3

/- Fixed-point facts for clean (space or lowercase) characters. -/

theorem clean_not_upper {c : Nat} (h : isSpaceB c = true ∨ isLowerB c = true) :
    isUpperB c = false := by
  revert h
  simp [isSpaceB, isLowerB, isUpperB]
  omega

theorem clean_lowerChar {c : Nat} (h : isSpaceB c = true ∨ isLowerB c = true) :
    lowerChar c = c := by
  rw [lowerChar, clean_not_upper h]
  simp

theorem clean_decompose {c : Nat} (h : isSpaceB c = true ∨ isLowerB c = true) :
    decomposeChar c = [c] ∧ combiningB c = false := by
  have h233 : c ≠ 233 := by
    revert h; simp [isSpaceB, isLowerB]; omega
  have h769 : c ≠ 769 := by
    revert h; simp [isSpaceB, isLowerB]; omega
  constructor
  · rw [decomposeChar, if_neg h233]
  · simpa [combiningB] using h769

theorem clean_dashToSpace {c : Nat} (h : isSpaceB c = true ∨ isLowerB c = true) :
    dashToSpace c = c := by
  have hd : ¬(c = 45 ∨ c = 95 ∨ c = 39) := by
    revert h; simp [isSpaceB, isLowerB]; omega
  rw [dashToSpace, if_neg hd]

theorem clean_punctToSpace {c : Nat} (h : isSpaceB c = true ∨ isLowerB c = true) :
    punctToSpace c = c := by
  have hd : ¬(isWordB c = false ∧ isSpaceB c = false) := by
    revert h; simp [isSpaceB, isWordB, isAlphaB, isLowerB, isUpperB, isDigitB]; omega
  rw [punctToSpace, if_neg hd]

theorem clean_not_digit {c : Nat} (h : isSpaceB c = true ∨ isLowerB c = true) :
    isDigitB c = false := by
  revert h; simp [isSpaceB, isLowerB, isDigitB]; omega

/-- The core stage fixes any string of clean characters. -/
theorem normCore_of_clean {l : Str} (h : ∀ c ∈ l, isSpaceB c = true ∨ isLowerB c = true) :
    normCore l = l := by
  unfold normCore
  rw [map_id_of_mem (fun c hc => clean_lowerChar (h c hc))]
  rw [nfkdStrip_id (fun c hc => clean_decompose (h c hc))]
  rw [map_id_of_mem (fun c hc => clean_dashToSpace (h c hc))]
  rw [map_id_of_mem (fun c hc => clean_punctToSpace (h c hc))]
  rw [subRuns_id (fun c hc => clean_not_digit (h c hc)) false]

theorem normCore_normalize (s : Str) : normCore (normalize s) = normalize s :=
  normCore_of_clean fun _ hc => normalize_chars hc

/-- Splitting walks through a space-free chunk accumulating it. -/
theorem wordsAux_chunk {w : Str} (hw : ∀ c ∈ w, isSpaceB c = false) :
    ∀ s acc, wordsAux (w ++ s) acc = wordsAux s (w.reverse ++ acc) := by
  induction w with
  | nil => intro s acc; simp
  | cons c cs ih =>
      intro s acc
      have hc : isSpaceB c = false := hw c (List.mem_cons_self _ _)
      have hstep : wordsAux (c :: (cs ++ s)) acc = wordsAux (cs ++ s) (c :: acc) := by
        simp [wordsAux, hc]
      rw [List.cons_append, hstep, ih (fun d hd => hw d (List.mem_cons_of_mem c hd)) s (c :: acc)]
      congr 1
      simp

/-- Splitting inverts joining for nonempty space-free words. -/
theorem wordsOf_joinWords : ∀ {W : List Str}, (∀ w ∈ W, w ≠ []) →
    (∀ w ∈ W, ∀ c ∈ w, isSpaceB c = false) → wordsOf (joinWords W) = W := by
  intro W
  match W with
  | [] => intro _ _; rfl
  | [w] =>
      intro hne hns
      have hwne : w ≠ [] := hne w (List.mem_singleton.mpr rfl)
      have hwns := hns w (List.mem_singleton.mpr rfl)
      show wordsOf w = [w]
      have hch := wordsAux_chunk hwns [] []
      rw [List.append_nil] at hch
      rw [wordsOf, hch]
      have hrev : w.reverse ++ ([] : Str) = w.reverse := List.append_nil _
      rw [hrev]
      have hrne : w.reverse ≠ [] := by
        intro hc
        exact hwne (by simpa using hc)
      simp [wordsAux, hrne]
  | w :: w2 :: rest =>
      intro hne hns
      have hwns := hns w (List.mem_cons_self _ _)
      rw [joinWords_cons2, wordsOf,
        wordsAux_chunk hwns (32 :: joinWords (w2 :: rest)) [], List.append_nil]
      have hwne : w ≠ [] := hne w (List.mem_cons_self _ _)
      have hrne : w.reverse ≠ [] := fun hc => hwne (by simpa using hc)
      have hstep : wordsAux (32 :: joinWords (w2 :: rest)) w.reverse =
          w.reverse.reverse :: wordsAux (joinWords (w2 :: rest)) [] := by
        simp [wordsAux, isSpaceB_32, hrne, hwne]
      rw [hstep]
      have hrec : wordsAux (joinWords (w2 :: rest)) [] = w2 :: rest := by
        have := wordsOf_joinWords (W := w2 :: rest)
          (fun v hv => hne v (List.mem_cons_of_mem w hv))
          (fun v hv => hns v (List.mem_cons_of_mem w hv))
        simpa [wordsOf] using this
      rw [hrec]
      simp

/-- Words of any string are nonempty and space-free. -/
theorem wordsOf_clean (l : Str) :
    (∀ w ∈ wordsOf l, w ≠ []) ∧ (∀ w ∈ wordsOf l, ∀ c ∈ w, isSpaceB c = false) := by
  constructor
  · intro w hw heq
    refine wordsAux_ne_nil l [] ?_
    have hx : ([] : Str) ∈ wordsOf l := heq ▸ hw
    exact hx
  · intro w hw c hc
    rcases wordsAux_chars l [] w c hw hc with ⟨_, h2⟩ | h3
    · exact h2
    · simp at h3

/-- Whitespace-only strings split into no words. -/
theorem wordsAux_of_spaces : ∀ {l : Str}, (∀ c ∈ l, isSpaceB c = true) →
    wordsAux l [] = [] := by
  intro l h
  induction l with
  | nil => rfl
  | cons c cs ih =>
      have hc := h c (List.mem_cons_self _ _)
      simp only [wordsAux, hc, if_pos, if_true]
      exact ih fun d hd => h d (List.mem_cons_of_mem c hd)

/-- Whitespace-only (or empty) input normalizes to the empty string. -/
theorem normalize_of_spaces {s : Str} (h : ∀ c ∈ s, isSpaceB c = true) :
    normalize s = [] := by
  rw [normalize_eq_words, normCore_of_clean (fun c hc => Or.inl (h c hc)),
    wordsOf, wordsAux_of_spaces h]
  rfl

/-- C6: normalize is idempotent. -/
theorem C6_normalize_idempotent (s : Str) : normalize (normalize s) = normalize s := by
  rw [normalize_eq_words (normalize s), normCore_normalize, normalize_eq_words s,
    wordsOf_joinWords (wordsOf_clean (normCore s)).1 (wordsOf_clean (normCore s)).2]

/-- C5 counterexample: the source replaces punctuation by a space (then collapses
whitespace), it does not remove it, so normalize of the three-character string
a dot b gives the words a and b joined by a space, not the removal reading ab. -/
theorem C5_counterexample :
    normalize (str "a.b") = str "a b" ∧
    normalize_spec_removal (str "a.b") = str "ab" ∧
    normalize (str "a.b") ≠ normalize_spec_removal (str "a.b") := by
  refine ⟨by decide, by decide, by decide⟩

/-- C5 (amended): normalize equals the step sequence of the spec with the two
removal steps read as replacement by a space (punctuation characters and digit
runs become a space before the whitespace collapse), the collapse and trim being
the join of the whitespace-delimited words by single spaces; and every empty or
whitespace-only input normalizes to the empty string. -/
theorem C5_normalize_steps (s : Str) :
    normalize s = normalize_spec_amended s ∧
    ((∀ c ∈ s, isSpaceB c = true) → normalize s = []) :=
  ⟨normalize_eq_words s, fun h => normalize_of_spaces h⟩

/-- Witness for the hypothesis-bearing part of C5_normalize_steps at a concrete
whitespace-only input. -/
theorem C5_normalize_steps_witness :
    (∀ c ∈ str "   ", isSpaceB c = true) ∧ normalize (str "   ") = [] :=
  ⟨by decide, (C5_normalize_steps (str "   ")).2 (by decide)⟩

/- Fuzzy scoring (fuzzy.py lines 10-26, 62-100). -/

/-- Suffix set _ALLOWED_SUFFIXES of fuzzy.py line 10; the empty suffix belongs to
the source set and is skipped at the use site. -/
def _ALLOWED_SUFFIXES : List Str :=
  [[], str ("s"), str ("ed"), str ("er"), str ("ing"), str ("in")]

/-- Suffix set _AGGRESSIVE_SUFFIXES of fuzzy.py lines 11-14: the base set extended
with the aggressive suffixes. -/
def _AGGRESSIVE_SUFFIXES : List Str :=
  _ALLOWED_SUFFIXES ++
    [str ("ly"), str ("ness"), str ("able"), str ("ible"), str ("ful"),
     str ("less"), str ("ward"), str ("wise"), str ("like"), str ("ish"),
     str ("ment"), str ("tion"), str ("sion")]

/-- Compound pattern set _COMPOUND_PATTERNS of fuzzy.py lines 15-19. -/
def _COMPOUND_PATTERNS : List Str :=
  [str ("un"), str ("re"), str ("pre"), str ("mis"), str ("dis"), str ("over"),
   str ("under"), str ("out"), str ("up"), str ("down"), str ("back"),
   str ("fore"), str ("anti"), str ("pro"), str ("semi"), str ("multi"),
   str ("non"), str ("sub"), str ("super"), str ("inter"), str ("intra"),
   str ("extra"), str ("ultra"), str ("mega"), str ("mini"), str ("micro"),
   str ("macro")]

/-- Stop-word set _STOPWORDS of fuzzy.py lines 20-26. -/
def _STOPWORDS : List Str :=
  [str ("a"), str ("an"), str ("the"), str ("and"), str ("or"), str ("but"),
   str ("if"), str ("then"), str ("else"), str ("of"), str ("to"), str ("in"),
   str ("on"), str ("for"), str ("by"), str ("with"), str ("at"), str ("from"),
   str ("as"), str ("is"), str ("it"), str ("its"), str ("be"), str ("are"),
   str ("was"), str ("were"), str ("am"), str ("he"), str ("she"), str ("they"),
   str ("we"), str ("you"), str ("i"), str ("me"), str ("him"), str ("her"),
   str ("them"), str ("us"), str ("my"), str ("your"), str ("his"),
   str ("their"), str ("our")]

/-- Inner loop of the longest-common-subsequence length, structurally recursive
in its list argument. -/
def lcsAux (a : Nat) (rest : Str → Nat) : Str → Nat
  | [] => 0
  | b :: bs => if a = b then rest bs + 1 else max (lcsAux a rest bs) (rest (b :: bs))

/-- Longest-common-subsequence length of two strings. -/
def lcsLen : Str → Str → Nat
  | [], _ => 0
  | a :: as, l2 => lcsAux a (lcsLen as) l2

/-- Model of rapidfuzz fuzz.ratio: the normalized InDel similarity percentage,
200 times the LCS length over the sum of the lengths (both-empty convention 100). -/
def indelScore (a b : Str) : ℚ :=
  if a.length + b.length = 0 then 100
  else 200 * (lcsLen a b : ℚ) / ((a.length + b.length : Nat) : ℚ)

/-- Model of the FuzzyTerm dataclass (fuzzy.py lines 29-33).  The threshold is
typed as a rational: the None-threshold fallback branch of find_matches line 116
is unreachable in this typed model. -/
structure FuzzyTerm where
  word : Str
  threshold : ℚ
  aggressive : Bool := false
  deriving DecidableEq

/-- Model of the MatchResult dataclass (fuzzy.py lines 36-40). -/
structure MatchResult where
  term : FuzzyTerm
  window_text : Str
  score : ℚ
  deriving DecidableEq

/-- Model of SimpleFuzzyMatcher._score_single_word (fuzzy.py lines 62-88). -/
def _score_single_word (query target : Str) (aggressive : Bool) : ℚ :=
  if query = target then 100
  else if (if aggressive then _AGGRESSIVE_SUFFIXES else _ALLOWED_SUFFIXES).any
      (fun sfx => decide (sfx ≠ [] ∧ (query = target ++ sfx ∨ target = query ++ sfx)))
    then 100
  else if aggressive && decide (3 ≤ target.length) && decide (target <:+: query) then 100
  else if aggressive && decide (3 ≤ target.length) && _COMPOUND_PATTERNS.any
      (fun pat => decide (query = pat ++ target ∨ query = target ++ pat)) then 100
  else
    let score := indelScore query target
    if 3 ≤ query.length ∧ 3 ≤ target.length ∧ query.headI ≠ target.headI ∧
        ¬ target <:+: query ∧ ¬ query <:+: target
    then max 0 (score - 25) else score

/-- Reference definition of single-word scoring following the words of the spec
as quoted by claim C1: 100 on equality; 100 on a nonempty applicable suffix
gluing one string to the other; 100, when aggressive and the target has at least
three characters, on a substring occurrence or a compound bracketing; otherwise
the normalized edit similarity with the first-letter mismatch penalty. -/
def score_single_word_spec (query target : Str) (aggressive : Bool) : ℚ :=
  if query = target then 100
  else if ∃ sfx ∈ (if aggressive then _AGGRESSIVE_SUFFIXES else _ALLOWED_SUFFIXES),
      sfx ≠ [] ∧ (query = target ++ sfx ∨ target = query ++ sfx) then 100
  else if aggressive = true ∧ 3 ≤ target.length ∧
      (target <:+: query ∨
        ∃ pat ∈ _COMPOUND_PATTERNS, query = pat ++ target ∨ query = target ++ pat)
    then 100
  else if 3 ≤ query.length ∧ 3 ≤ target.length ∧ query.headI ≠ target.headI ∧
      ¬ target <:+: query ∧ ¬ query <:+: target
    then max 0 (indelScore query target - 25) else indelScore query target

/-- C1: the single-word score of fuzzy.py lines 62-88 equals the reference
definition assembled from the spec: 100 on equality, 100 on nonempty-suffix
equivalence over the applicable suffix set, 100 under aggressive mode for a
substring occurrence or compound bracketing of a target of length at least 3,
and otherwise the normalized edit-similarity percentage lowered by 25 and
floored at 0 exactly when both strings have length at least 3, their first
characters differ, and neither contains the other. -/
theorem C1_score_single_word (query target : Str) (aggressive : Bool) :
    _score_single_word query target aggressive =
      score_single_word_spec query target aggressive := by
  unfold _score_single_word score_single_word_spec
  by_cases heq : query = target
  · rw [if_pos heq, if_pos heq]
  · rw [if_neg heq, if_neg heq]
    have hsfx_iff : ((if aggressive then _AGGRESSIVE_SUFFIXES else _ALLOWED_SUFFIXES).any
        (fun sfx => decide (sfx ≠ [] ∧ (query = target ++ sfx ∨ target = query ++ sfx)))
          = true) ↔
        ∃ sfx ∈ (if aggressive then _AGGRESSIVE_SUFFIXES else _ALLOWED_SUFFIXES),
          sfx ≠ [] ∧ (query = target ++ sfx ∨ target = query ++ sfx) := by
      simp [List.any_eq_true]
    by_cases hsfx : ∃ sfx ∈ (if aggressive then _AGGRESSIVE_SUFFIXES
        else _ALLOWED_SUFFIXES), sfx ≠ [] ∧ (query = target ++ sfx ∨ target = query ++ sfx)
    · rw [if_pos (hsfx_iff.mpr hsfx), if_pos hsfx]
    · rw [if_neg (fun hc => hsfx (hsfx_iff.mp hc)), if_neg hsfx]
      have hA_iff : ((aggressive && decide (3 ≤ target.length)
            && decide (target <:+: query)) = true) ↔
          (aggressive = true ∧ 3 ≤ target.length ∧ target <:+: query) := by
        simp [Bool.and_eq_true, and_assoc]
      have hB_iff : ((aggressive && decide (3 ≤ target.length) && _COMPOUND_PATTERNS.any
            (fun pat => decide (query = pat ++ target ∨ query = target ++ pat))) = true) ↔
          (aggressive = true ∧ 3 ≤ target.length ∧
            ∃ pat ∈ _COMPOUND_PATTERNS, query = pat ++ target ∨ query = target ++ pat) := by
        simp [Bool.and_eq_true, List.any_eq_true, and_assoc]
      by_cases hA : aggressive = true ∧ 3 ≤ target.length ∧ target <:+: query
      · rw [if_pos (hA_iff.mpr hA), if_pos ⟨hA.1, hA.2.1, Or.inl hA.2.2⟩]
      · rw [if_neg (fun hc => hA (hA_iff.mp hc))]
        by_cases hB : aggressive = true ∧ 3 ≤ target.length ∧
            ∃ pat ∈ _COMPOUND_PATTERNS, query = pat ++ target ∨ query = target ++ pat
        · rw [if_pos (hB_iff.mpr hB), if_pos ⟨hB.1, hB.2.1, Or.inr hB.2.2⟩]
        · have hS : ¬(aggressive = true ∧ 3 ≤ target.length ∧
              (target <:+: query ∨
                ∃ pat ∈ _COMPOUND_PATTERNS, query = pat ++ target ∨ query = target ++ pat)) := by
            rintro ⟨h1, h2, h3 | h4⟩
            · exact hA ⟨h1, h2, h3⟩
            · exact hB ⟨h1, h2, h4⟩
          rw [if_neg (fun hc => hB (hB_iff.mp hc)), if_neg hS]

/-- Model of SimpleFuzzyMatcher._score_window (fuzzy.py lines 90-100). -/
def _score_window (window_text target : Str) (aggressive : Bool) : ℚ :=
  if wordsOf target = [] ∨ wordsOf window_text = [] then 0
  else if (wordsOf target).length = 1 ∧ (wordsOf window_text).length = 1 then
    _score_single_word window_text target aggressive
  else indelScore window_text target

/-- Model of SimpleFuzzyMatcher.find_matches (fuzzy.py lines 102-131); the
matcher state (terms, default_threshold) is passed explicitly. -/
def find_matches (terms : List FuzzyTerm) (default_threshold : ℚ) (text : Str) :
    List MatchResult :=
  if terms = [] then []
  else
    let words := wordsOf (normalize text)
    terms.flatMap (fun term =>
      let target := normalize term.word
      if target = [] then []
      else
        (List.range (words.length + 1 - (wordsOf target).length)).filterMap (fun i =>
          let window_text := joinWords ((words.drop i).take (wordsOf target).length)
          if window_text ∈ _STOPWORDS then none
          else if term.threshold ≤ _score_window window_text target term.aggressive then
            some ⟨term, window_text, _score_window window_text target term.aggressive⟩
          else none))

/-- C9: find_matches returns no matches when the term list is empty, and a term
whose word normalizes to the empty string contributes nothing, so a matcher all
of whose terms normalize to empty returns the empty list on every text. -/
theorem C9_find_matches_trivial_terms (terms : List FuzzyTerm)
    (default_threshold : ℚ) (text : Str)
    (h : ∀ t ∈ terms, normalize t.word = []) :
    find_matches terms default_threshold text = [] := by
  unfold find_matches
  by_cases ht : terms = []
  · rw [if_pos ht]
  · rw [if_neg ht]
    refine List.flatMap_eq_nil_iff.mpr ?_
    intro t htmem
    rw [if_pos (h t htmem)]

/-- Witness for C9 at a term whose word is all digits, hence normalizes to the
empty string. -/
theorem C9_find_matches_trivial_terms_witness :
    (∀ t ∈ [FuzzyTerm.mk (str ("123")) 85 false], normalize t.word = []) ∧
    find_matches [FuzzyTerm.mk (str ("123")) 85 false] 85 (str ("hello")) = [] :=
  ⟨by decide, C9_find_matches_trivial_terms _ 85 (str ("hello")) (by decide)⟩

/-- C2 (amended): no emitted match ever has a stop-word as its window text, so a
stop-word configured as a term is never flagged at an occurrence of the
stop-word itself; a permissive threshold can still let a stop-word term match
other windows. -/
theorem C2_no_stopword_window (terms : List FuzzyTerm) (default_threshold : ℚ)
    (text : Str) (m : MatchResult)
    (hm : m ∈ find_matches terms default_threshold text) :
    m.window_text ∉ _STOPWORDS := by
  unfold find_matches at hm
  by_cases ht : terms = []
  · rw [if_pos ht] at hm
    simp at hm
  · rw [if_neg ht] at hm
    obtain ⟨term, _, hmf⟩ := List.mem_flatMap.mp hm
    by_cases htgt : normalize term.word = []
    · rw [if_pos htgt] at hmf
      simp at hmf
    · rw [if_neg htgt] at hmf
      obtain ⟨i, _, hsome⟩ := List.mem_filterMap.mp hmf
      set w := joinWords ((List.drop i (wordsOf (normalize text))).take
        (wordsOf (normalize term.word)).length) with hw
      by_cases hsw : w ∈ _STOPWORDS
      · rw [if_pos hsw] at hsome
        exact absurd hsome (by simp)
      · by_cases hth : term.threshold ≤
            _score_window w (normalize term.word) term.aggressive
        · rw [if_neg hsw, if_pos hth] at hsome
          have hmval : m = ⟨term, w, _score_window w (normalize term.word) term.aggressive⟩ :=
            (Option.some_injective _ hsome).symm
          rw [hmval]
          exact hsw
        · rw [if_neg hsw, if_neg hth] at hsome
          exact absurd hsome (by simp)

/-- Score of the window hello against the stop-word term the: edit similarity 50
lowered by the first-letter penalty to 25. -/
theorem score_hello_the : _score_window (str ("hello")) (str ("the")) false = 25 := by
  unfold _score_window
  rw [if_neg (by decide), if_pos (by decide)]
  unfold _score_single_word
  rw [if_neg (by decide), if_neg (by decide), if_neg (by decide), if_neg (by decide),
    if_pos (by decide)]
  show max 0 (indelScore (str ("hello")) (str ("the")) - 25) = 25
  unfold indelScore
  rw [if_neg (by decide)]
  have hl : lcsLen (str ("hello")) (str ("the")) = 2 := by decide
  have hq : (str ("hello")).length = 5 := by decide
  have ht : (str ("the")).length = 3 := by decide
  rw [hl, hq, ht]
  push_cast
  norm_num

/-- C2 counterexample: the stop-word term the with threshold 0 DOES emit a match
on the text hello (score 25 is at least 0), so a stop-word term does not go
matchless under every threshold. -/
theorem C2_counterexample :
    normalize (str ("the")) ∈ _STOPWORDS ∧
    find_matches [FuzzyTerm.mk (str ("the")) 0 false] 85 (str ("hello")) =
      [MatchResult.mk (FuzzyTerm.mk (str ("the")) 0 false) (str ("hello")) 25] := by
  refine ⟨by decide, ?_⟩
  have hn1 : normalize (str ("hello")) = str ("hello") := by decide
  have hn2 : normalize (str ("the")) = str ("the") := by decide
  have hwords : wordsOf (str ("hello")) = [str ("hello")] := by decide
  have hk : (wordsOf (str ("the"))).length = 1 := by decide
  have hnsw : str ("hello") ∉ _STOPWORDS := by decide
  have hth : (0 : ℚ) ≤ 25 := by norm_num
  unfold find_matches
  rw [if_neg (by decide)]
  simp only [List.flatMap_cons, List.flatMap_nil, List.append_nil, hn1, hn2, hwords, hk]
  rw [if_neg (by decide : ¬(str ("the") = []))]
  have hr : List.range ([str ("hello")].length + 1 - 1) = [0] := by decide
  rw [hr]
  simp only [List.filterMap_cons, List.filterMap_nil]
  have hwin : joinWords (List.take 1 (List.drop 0 [str ("hello")])) = str ("hello") := by
    decide
  rw [hwin, if_neg hnsw, score_hello_the, if_pos hth]

/-- Witness for C2_no_stopword_window at a concrete exact match of the term damn. -/
theorem C2_no_stopword_window_witness :
    (MatchResult.mk (FuzzyTerm.mk (str ("damn")) 85 false) (str ("damn")) 100 ∈
      find_matches [FuzzyTerm.mk (str ("damn")) 85 false] 85 (str ("damn"))) ∧
    (MatchResult.mk (FuzzyTerm.mk (str ("damn")) 85 false) (str ("damn")) 100).window_text ∉
      _STOPWORDS := by
  have hsc : _score_window (str ("damn")) (str ("damn")) false = 100 := by
    unfold _score_window
    rw [if_neg (by decide), if_pos (by decide)]
    unfold _score_single_word
    rw [if_pos rfl]
  have hmem : MatchResult.mk (FuzzyTerm.mk (str ("damn")) 85 false) (str ("damn")) 100 ∈
      find_matches [FuzzyTerm.mk (str ("damn")) 85 false] 85 (str ("damn")) := by
    have hn : normalize (str ("damn")) = str ("damn") := by decide
    have hwords : wordsOf (str ("damn")) = [str ("damn")] := by decide
    have hnsw : str ("damn") ∉ _STOPWORDS := by decide
    have hth : (85 : ℚ) ≤ 100 := by norm_num
    unfold find_matches
    rw [if_neg (by decide)]
    have hlen : ([str ("damn")] : List Str).length = 1 := rfl
    simp only [List.flatMap_cons, List.flatMap_nil, List.append_nil, hn, hwords, hlen]
    rw [if_neg (by decide : ¬(str ("damn") = []))]
    have hr : List.range (1 + 1 - 1) = [0] := by decide
    rw [hr]
    simp only [List.filterMap_cons, List.filterMap_nil]
    have hwin : joinWords (List.take 1 (List.drop 0 [str ("damn")])) = str ("damn") := by
      decide
    rw [hwin, if_neg hnsw, hsc, if_pos hth]
    exact List.mem_singleton.mpr rfl
  exact ⟨hmem, C2_no_stopword_window [FuzzyTerm.mk (str ("damn")) 85 false] 85
    (str ("damn")) _ hmem⟩

/- Interval merging (audio_mute.py lines 18-21 and 54-64, audio_qc.py lines 90-101). -/

/-- Model of the MuteWindow dataclass: a time interval in seconds. -/
structure MuteWindow where
  start : ℚ
  «end» : ℚ
  deriving DecidableEq

/-- Tolerance used by the merging walk (the literal 1e-3 of the source). -/
def mergeEps : ℚ := 1 / 1000

/-- Sorting key order of the source: ascending by (start, end). -/
def wle (a b : MuteWindow) : Prop :=
  a.start < b.start ∨ (a.start = b.start ∧ a.«end» ≤ b.«end»)

instance : DecidableRel wle := fun a b => by
  unfold wle
  infer_instance

instance : IsTotal MuteWindow wle := by
  constructor
  intro a b
  rcases lt_trichotomy a.start b.start with h | h | h
  · exact Or.inl (Or.inl h)
  · rcases le_total a.«end» b.«end» with he | he
    · exact Or.inl (Or.inr ⟨h, he⟩)
    · exact Or.inr (Or.inr ⟨h.symm, he⟩)
  · exact Or.inr (Or.inl h)

instance : IsTrans MuteWindow wle := by
  constructor
  intro a b c hab hbc
  rcases hab with h1 | ⟨h1, h2⟩ <;> rcases hbc with h3 | ⟨h3, h4⟩
  · exact Or.inl (h1.trans h3)
  · exact Or.inl (h3 ▸ h1)
  · exact Or.inl (h1 ▸ h3)
  · exact Or.inr ⟨h1.trans h3, h2.trans h4⟩

/-- Walk of _merge_overlaps: extend the current window while the next start is
within the tolerance of the current end, else close it. -/
def mergeLoop (cur : MuteWindow) : List MuteWindow → List MuteWindow
  | [] => [cur]
  | w :: ws =>
      if w.start ≤ cur.«end» + mergeEps then
        mergeLoop ⟨cur.start, max cur.«end» w.«end»⟩ ws
      else cur :: mergeLoop w ws

/-- Model of AudioQC._merge_overlaps (audio_qc.py lines 90-101): sort ascending by
(start, end), then walk merging near-adjacent windows; AudioMute._merge_overlaps
(audio_mute.py lines 54-64) is the same walk applied after the identical sort done
by its caller _load_windows (line 51). -/
def _merge_overlaps (windows : List MuteWindow) : List MuteWindow :=
  match List.insertionSort wle windows with
  | [] => []
  | w :: rest => mergeLoop w rest

/-- Relation expressing sorted-by-start order. -/
def startLE (a b : MuteWindow) : Prop := a.start ≤ b.start

/-- Every window of the merged walk starts at or after the opening window. -/
theorem mergeLoop_start_lower (ws : List MuteWindow) : ∀ cur,
    List.Sorted startLE (cur :: ws) →
    ∀ m ∈ mergeLoop cur ws, cur.start ≤ m.start := by
  induction ws with
  | nil =>
      intro cur _ m hm
      simp only [mergeLoop, List.mem_singleton] at hm
      exact hm ▸ le_refl _
  | cons w ws ih =>
      intro cur hs m hm
      have hs1 := (List.sorted_cons.mp hs).1
      have hs2 := (List.sorted_cons.mp hs).2
      by_cases h : w.start ≤ cur.«end» + mergeEps
      · rw [mergeLoop, if_pos h] at hm
        have hsort : List.Sorted startLE (⟨cur.start, max cur.«end» w.«end»⟩ :: ws) := by
          rw [List.sorted_cons]
          exact ⟨fun b hb => (List.sorted_cons.mp hs).1 b (List.mem_cons_of_mem w hb),
            (List.sorted_cons.mp hs2).2⟩
        exact ih _ hsort m hm
      · rw [mergeLoop, if_neg h] at hm
        rcases List.mem_cons.mp hm with h1 | h2
        · exact h1 ▸ le_refl _
        · exact le_trans (hs1 w (List.mem_cons_self _ _)) (ih w hs2 m h2)

/-- The merged walk keeps ends at or after starts and separates consecutive
windows by more than the tolerance. -/
theorem mergeLoop_invariant (ws : List MuteWindow) : ∀ cur,
    List.Sorted startLE (cur :: ws) →
    cur.start ≤ cur.«end» →
    (∀ w ∈ ws, w.start ≤ w.«end») →
    (∀ m ∈ mergeLoop cur ws, m.start ≤ m.«end») ∧
      List.Pairwise (fun a b => a.«end» + mergeEps < b.start) (mergeLoop cur ws) := by
  induction ws with
  | nil =>
      intro cur _ hc _
      constructor
      · intro m hm
        simp only [mergeLoop, List.mem_singleton] at hm
        exact hm ▸ hc
      · simp [mergeLoop]
  | cons w ws ih =>
      intro cur hs hc hws
      have hs2 := (List.sorted_cons.mp hs).2
      by_cases h : w.start ≤ cur.«end» + mergeEps
      · rw [mergeLoop, if_pos h]
        have hsort : List.Sorted startLE (⟨cur.start, max cur.«end» w.«end»⟩ :: ws) := by
          rw [List.sorted_cons]
          exact ⟨fun b hb => (List.sorted_cons.mp hs).1 b (List.mem_cons_of_mem w hb),
            (List.sorted_cons.mp hs2).2⟩
        exact ih _ hsort (le_trans hc (le_max_left _ _))
          (fun v hv => hws v (List.mem_cons_of_mem w hv))
      · rw [mergeLoop, if_neg h]
        push_neg at h
        have hrec := ih w hs2 (hws w (List.mem_cons_self _ _))
          (fun v hv => hws v (List.mem_cons_of_mem w hv))
        constructor
        · intro m hm
          rcases List.mem_cons.mp hm with h1 | h2
          · exact h1 ▸ hc
          · exact hrec.1 m h2
        · rw [List.pairwise_cons]
          refine ⟨?_, hrec.2⟩
          intro m hm
          exact lt_of_lt_of_le h (mergeLoop_start_lower ws w hs2 m hm)

/-- Every input window of the sorted walk is contained in some merged window. -/
theorem mergeLoop_coverage (ws : List MuteWindow) : ∀ cur,
    List.Sorted startLE (cur :: ws) →
    ∀ v ∈ cur :: ws, ∃ m ∈ mergeLoop cur ws, m.start ≤ v.start ∧ v.«end» ≤ m.«end» := by
  induction ws with
  | nil =>
      intro cur _ v hv
      rcases List.mem_cons.mp hv with rfl | hv2
      · exact ⟨v, by simp [mergeLoop], le_refl _, le_refl _⟩
      · simp at hv2
  | cons w ws ih =>
      intro cur hs v hv
      have hs2 := (List.sorted_cons.mp hs).2
      have hcw : cur.start ≤ w.start :=
        (List.sorted_cons.mp hs).1 w (List.mem_cons_self _ _)
      by_cases h : w.start ≤ cur.«end» + mergeEps
      · rw [mergeLoop, if_pos h]
        have hsort2 : List.Sorted startLE
            ((⟨cur.start, max cur.«end» w.«end»⟩ : MuteWindow) :: ws) := by
          rw [List.sorted_cons]
          exact ⟨fun b hb => (List.sorted_cons.mp hs).1 b (List.mem_cons_of_mem w hb),
            (List.sorted_cons.mp hs2).2⟩
        obtain ⟨m, hm, hm1, hm2⟩ := ih _ hsort2 _ (List.mem_cons_self _ _)
        rcases List.mem_cons.mp hv with rfl | hv2
        · exact ⟨m, hm, hm1, le_trans (le_max_left _ _) hm2⟩
        · rcases List.mem_cons.mp hv2 with rfl | hv3
          · exact ⟨m, hm, le_trans hm1 hcw, le_trans (le_max_right _ _) hm2⟩
          · exact ih _ hsort2 v (List.mem_cons_of_mem _ hv3)
      · rw [mergeLoop, if_neg h]
        rcases List.mem_cons.mp hv with rfl | hv2
        · exact ⟨v, List.mem_cons_self _ _, le_refl _, le_refl _⟩
        · obtain ⟨m, hm, hm1, hm2⟩ := ih w hs2 v hv2
          exact ⟨m, List.mem_cons_of_mem _ hm, hm1, hm2⟩

theorem wle_start_le {a b : MuteWindow} (h : wle a b) : startLE a b := by
  rcases h with h1 | ⟨h1, _⟩
  · exact le_of_lt h1
  · exact le_of_eq h1

/-- C3: interval merging (sort ascending by (start, end), then the tolerance
walk) yields a list sorted ascending by start whose consecutive and hence all
pairs are separated by more than the epsilon 1/1000, and on the concrete input
of the spec it returns the merged pair of the spec. -/
theorem C3_merge_overlaps (ws : List MuteWindow) (h : ∀ w ∈ ws, w.start ≤ w.«end») :
    List.Pairwise (fun a b => a.start ≤ b.start ∧ a.«end» + mergeEps < b.start)
      (_merge_overlaps ws) ∧
    _merge_overlaps [⟨1, 2⟩, ⟨19/10, 21/10⟩, ⟨3, 16/5⟩] = [⟨1, 21/10⟩, ⟨3, 16/5⟩] := by
  constructor
  · unfold _merge_overlaps
    have hperm := List.perm_insertionSort wle ws
    have hsorted := List.sorted_insertionSort wle ws
    cases hs : List.insertionSort wle ws with
    | nil => simp
    | cons w rest =>
        rw [hs] at hperm hsorted
        have hstart : List.Sorted startLE (w :: rest) :=
          hsorted.imp fun hab => wle_start_le hab
        have hmem : ∀ v ∈ w :: rest, v.start ≤ v.«end» :=
          fun v hv => h v (hperm.mem_iff.mp hv)
        have hinv := mergeLoop_invariant rest w hstart
          (hmem w (List.mem_cons_self _ _))
          (fun v hv => hmem v (List.mem_cons_of_mem w hv))
        refine hinv.2.imp_of_mem ?_
        intro a b ha _ hsep
        have heps : (0 : ℚ) < mergeEps := by norm_num [mergeEps]
        have hlt : a.«end» < a.«end» + mergeEps := lt_add_of_pos_right _ heps
        exact ⟨le_of_lt (lt_of_le_of_lt (le_trans (hinv.1 a ha) (le_of_lt hlt)) hsep), hsep⟩
  · norm_num [_merge_overlaps, List.insertionSort, List.orderedInsert, wle,
      mergeLoop, mergeEps, max_def]

/-- C10: merging loses no coverage: under the sort order of the source and the
interval invariant, every input window is contained in some merged window. -/
theorem C10_merge_coverage (ws : List MuteWindow) (hsort : List.Sorted wle ws)
    (h : ∀ w ∈ ws, w.start ≤ w.«end») (v : MuteWindow) (hv : v ∈ ws) :
    ∃ m ∈ _merge_overlaps ws, m.start ≤ v.start ∧ v.«end» ≤ m.«end» := by
  unfold _merge_overlaps
  have hperm := List.perm_insertionSort wle ws
  have hsorted := List.sorted_insertionSort wle ws
  cases hs : List.insertionSort wle ws with
  | nil =>
      rw [hs] at hperm
      rw [hperm.symm.eq_nil] at hv
      simp at hv
  | cons w rest =>
      rw [hs] at hperm hsorted
      have hstart : List.Sorted startLE (w :: rest) :=
        hsorted.imp fun hab => wle_start_le hab
      exact mergeLoop_coverage rest w hstart v (hperm.mem_iff.mpr hv)

/-- Witness for C3_merge_overlaps at a concrete one-window input. -/
theorem C3_merge_overlaps_witness :
    (∀ w ∈ [(⟨1, 2⟩ : MuteWindow)], w.start ≤ w.«end») ∧
    (List.Pairwise (fun a b => a.start ≤ b.start ∧ a.«end» + mergeEps < b.start)
      (_merge_overlaps [(⟨1, 2⟩ : MuteWindow)]) ∧
     _merge_overlaps [⟨1, 2⟩, ⟨19/10, 21/10⟩, ⟨3, 16/5⟩] = [⟨1, 21/10⟩, ⟨3, 16/5⟩]) := by
  have hyp : ∀ w ∈ [(⟨1, 2⟩ : MuteWindow)], w.start ≤ w.«end» := by
    intro w hw
    rw [List.mem_singleton] at hw
    subst hw
    norm_num
  exact ⟨hyp, C3_merge_overlaps [⟨1, 2⟩] hyp⟩

/-- Witness for C10_merge_coverage at a concrete sorted two-window input. -/
theorem C10_merge_coverage_witness :
    List.Sorted wle [(⟨1, 2⟩ : MuteWindow), ⟨3, 4⟩] ∧
    (∀ w ∈ [(⟨1, 2⟩ : MuteWindow), ⟨3, 4⟩], w.start ≤ w.«end») ∧
    ((⟨3, 4⟩ : MuteWindow) ∈ [(⟨1, 2⟩ : MuteWindow), ⟨3, 4⟩]) ∧
    ∃ m ∈ _merge_overlaps [(⟨1, 2⟩ : MuteWindow), ⟨3, 4⟩],
      m.start ≤ (3 : ℚ) ∧ (4 : ℚ) ≤ m.«end» := by
  have h1 : List.Sorted wle [(⟨1, 2⟩ : MuteWindow), ⟨3, 4⟩] := by
    rw [List.sorted_cons]
    refine ⟨?_, ?_⟩
    · intro b hb
      rw [List.mem_singleton] at hb
      subst hb
      exact Or.inl (by norm_num)
    · simp
  have h2 : ∀ w ∈ [(⟨1, 2⟩ : MuteWindow), ⟨3, 4⟩], w.start ≤ w.«end» := by
    intro w hw
    rcases List.mem_cons.mp hw with rfl | hw2
    · norm_num
    · rw [List.mem_singleton] at hw2
      subst hw2
      norm_num
  have h3 : (⟨3, 4⟩ : MuteWindow) ∈ [(⟨1, 2⟩ : MuteWindow), ⟨3, 4⟩] := by simp
  exact ⟨h1, h2, h3, C10_merge_coverage _ h1 h2 _ h3⟩

/- Control-span selection (audio_qc.py lines 122-133). -/

/-- Loop of _select_control_spans: before each window, when the gap since the
cursor is at least sample_len, emit the span of the first sample_len seconds of
the gap, then advance the cursor past the window; finally treat the tail gap up
to the duration the same way. -/
def controlLoop (duration sample_len : ℚ) : ℚ → List MuteWindow → List (ℚ × ℚ)
  | current, [] =>
      if sample_len ≤ duration - current then
        [(current, min (current + sample_len) duration)]
      else []
  | current, w :: ws =>
      (if sample_len ≤ w.start - current then
        [(current, min (current + sample_len) w.start)]
      else []) ++ controlLoop duration sample_len (max current w.«end») ws

/-- Model of AudioQC._select_control_spans (audio_qc.py lines 122-133): the
source defaults are sample_len 1.0 and max_samples 5, and the cap is applied to
the fully built list. -/
def _select_control_spans (windows : List MuteWindow) (duration : ℚ)
    (sample_len : ℚ) (max_samples : Nat) : List (ℚ × ℚ) :=
  (controlLoop duration sample_len 0 windows).take max_samples

/-- Maximal complement gaps of a merged window list inside the bound 0 to total:
the spans between the cursor and each window start, and the tail span up to
total. -/
def gapsOf (total : ℚ) : ℚ → List MuteWindow → List (ℚ × ℚ)
  | current, [] => [(current, total)]
  | current, w :: ws => (current, w.start) :: gapsOf total w.«end» ws

/-- Reference definition of gap extraction following the words of the spec as
quoted by claim C7: the sorted list of maximal gaps within the duration bound,
restricted to gaps of at least the minimum length, capped to the maximum count. -/
def gap_extraction_spec (windows : List MuteWindow) (total min_len : ℚ)
    (max_count : Nat) : List (ℚ × ℚ) :=
  ((gapsOf total 0 windows).filter (fun g => min_len ≤ g.2 - g.1)).take max_count

/-- C7 counterexample: on the single merged window from 3 to 4 with duration 10,
the source emits only the first second of each qualifying gap, not the full
complement gaps. -/
theorem C7_counterexample :
    _select_control_spans [⟨3, 4⟩] 10 1 5 = [(0, 1), (4, 5)] ∧
    gap_extraction_spec [⟨3, 4⟩] 10 1 5 = [(0, 3), (4, 10)] ∧
    _select_control_spans [⟨3, 4⟩] 10 1 5 ≠ gap_extraction_spec [⟨3, 4⟩] 10 1 5 := by
  refine ⟨?_, ?_, ?_⟩ <;>
    norm_num [_select_control_spans, controlLoop, gap_extraction_spec, gapsOf,
      List.filter_cons, List.filter_nil, decide_eq_true_eq, min_def, max_def,
      Prod.ext_iff]

/-- The control-span loop equals the qualifying gaps with each gap cut to its
first sample_len seconds, for a cursor below the coming starts. -/
theorem controlLoop_eq_gaps (duration sample_len : ℚ) :
    ∀ (ws : List MuteWindow) (current : ℚ),
    (∀ w ∈ ws, w.start ≤ w.«end») →
    List.Chain' (fun a b => a.«end» ≤ b.start) ws →
    (∀ w0 ∈ ws.head?, current ≤ w0.start) →
    controlLoop duration sample_len current ws =
      ((gapsOf duration current ws).filter (fun g => sample_len ≤ g.2 - g.1)).map
        (fun g => (g.1, min (g.1 + sample_len) g.2)) := by
  intro ws
  induction ws with
  | nil =>
      intro current _ _ _
      rw [controlLoop, gapsOf]
      by_cases h : sample_len ≤ duration - current
      · rw [if_pos h]
        rw [List.filter_cons, if_pos (by simpa using h), List.filter_nil,
          List.map_cons, List.map_nil]
      · rw [if_neg h]
        rw [List.filter_cons, if_neg (by simpa using h), List.filter_nil,
          List.map_nil]
  | cons w ws ih =>
      intro current hse hc hhead
      have hcw : current ≤ w.start := hhead w rfl
      have hmax : max current w.«end» = w.«end» :=
        max_eq_right (le_trans hcw (hse w (List.mem_cons_self _ _)))
      have hc2 := (List.chain'_cons'.mp hc).2
      have hhead2 : ∀ w0 ∈ ws.head?, w.«end» ≤ w0.start :=
        (List.chain'_cons'.mp hc).1
      rw [controlLoop, gapsOf, hmax,
        ih w.«end» (fun v hv => hse v (List.mem_cons_of_mem w hv)) hc2 hhead2]
      by_cases h : sample_len ≤ w.start - current
      · rw [if_pos h, List.filter_cons, if_pos (by simpa using h), List.map_cons]
        rfl
      · rw [if_neg h, List.filter_cons, if_neg (by simpa using h)]
        rfl

/-- C7 (amended): for a merged (each window within the bound, starts before
ends, pairwise separated) window list, the control-span mode returns, in order,
one span per maximal complement gap of length at least sample_len, namely the
first sample_len seconds of that gap, capped to max_samples; it does not return
the full gaps. -/
theorem C7_control_spans (ws : List MuteWindow) (duration sample_len : ℚ)
    (max_samples : Nat)
    (h0 : ∀ w ∈ ws, 0 ≤ w.start ∧ w.start ≤ w.«end»)
    (hc : List.Chain' (fun a b => a.«end» ≤ b.start) ws) :
    _select_control_spans ws duration sample_len max_samples =
      (((gapsOf duration 0 ws).filter (fun g => sample_len ≤ g.2 - g.1)).map
        (fun g => (g.1, min (g.1 + sample_len) g.2))).take max_samples := by
  unfold _select_control_spans
  rw [controlLoop_eq_gaps duration sample_len ws 0
    (fun v hv => (h0 v hv).2) hc ?_]
  intro w0 hw0
  cases ws with
  | nil => simp at hw0
  | cons w rest =>
      simp only [List.head?_cons, Option.mem_def, Option.some_inj] at hw0
      exact hw0 ▸ (h0 w (List.mem_cons_self _ _)).1

/-- Witness for C7_control_spans at the single window from 3 to 4. -/
theorem C7_control_spans_witness :
    (∀ w ∈ [(⟨3, 4⟩ : MuteWindow)], 0 ≤ w.start ∧ w.start ≤ w.«end») ∧
    List.Chain' (fun a b => a.«end» ≤ b.start) [(⟨3, 4⟩ : MuteWindow)] ∧
    _select_control_spans [(⟨3, 4⟩ : MuteWindow)] 10 1 5 =
      (((gapsOf 10 0 [(⟨3, 4⟩ : MuteWindow)]).filter (fun g => 1 ≤ g.2 - g.1)).map
        (fun g => (g.1, min (g.1 + 1) g.2))).take 5 := by
  have h0 : ∀ w ∈ [(⟨3, 4⟩ : MuteWindow)], 0 ≤ w.start ∧ w.start ≤ w.«end» := by
    intro w hw
    rw [List.mem_singleton] at hw
    subst hw
    norm_num
  have hc : List.Chain' (fun a b : MuteWindow => a.«end» ≤ b.start)
      [(⟨3, 4⟩ : MuteWindow)] := by simp
  exact ⟨h0, hc, C7_control_spans [⟨3, 4⟩] 10 1 5 h0 hc⟩

/- Subtitle masking (subtitle_mask.py lines 137-161). -/

/-- Word-boundary test of the regex anchor before a character: the word-character
status changes between the preceding character (none at the string edge) and the
current one. -/
def boundaryB (prev : Option Nat) (cur : Nat) : Bool :=
  prev.elim false isWordB != isWordB cur

/-- Word-boundary test after the last matched character. -/
def boundaryEndB (lastc : Nat) (next : Option Nat) : Bool :=
  isWordB lastc != next.elim false isWordB

/-- Case-insensitive string equality (the IGNORECASE flag, ASCII fragment). -/
def lowEq (a b : Str) : Bool := a.map lowerChar == b.map lowerChar

/-- Match test at the head of the remaining text for the word-boundary-anchored,
case-insensitive literal pattern used by _mask_text. -/
def matchAt (pat : Str) (prev : Option Nat) (s : Str) : Bool :=
  decide (pat ≠ []) && decide (pat.length ≤ s.length) &&
  lowEq (s.take pat.length) pat &&
  boundaryB prev s.headI &&
  (match (s.take pat.length).getLast? with
   | none => false
   | some lastc => boundaryEndB lastc (s.drop pat.length).head?)

/-- Model of re.subn with the pattern of subtitle_mask.py lines 149-156: scan left
to right, replace every non-overlapping whole-word case-insensitive occurrence of
the literal pattern with an equal-length run of asterisks (42), and count the
replacements. -/
def subnWB (pat : Str) : Option Nat → Str → Str × Nat
  | _, [] => ([], 0)
  | prev, c :: cs =>
      if h : matchAt pat prev (c :: cs) = true then
        let r := subnWB pat ((c :: cs).take pat.length).getLast? ((c :: cs).drop pat.length)
        (List.replicate pat.length 42 ++ r.1, r.2 + 1)
      else
        let r := subnWB pat (some c) cs
        (c :: r.1, r.2)
  termination_by _ s => s.length
  decreasing_by
  · have hne : pat ≠ [] := by
      simp only [matchAt, Bool.and_eq_true, decide_eq_true_eq] at h
      exact h.1.1.1.1
    have hpos : 0 < pat.length := List.length_pos.mpr hne
    simp only [List.length_drop, List.length_cons]
    omega
  · simp only [List.length_cons]
    omega

/-- Pattern cascade of _mask_text lines 145-159: try each pattern in order,
keeping the rewritten text, and stop after the first pattern that achieved at
least one replacement; empty patterns are skipped. -/
def tryPatterns (masked : Str) : List Str → Str
  | [] => masked
  | pat :: rest =>
      if pat = [] then tryPatterns masked rest
      else
        let r := subnWB pat none masked
        if 0 < r.2 then r.1 else tryPatterns r.1 rest

/-- Sort order of _mask_text line 142: descending window-text length. -/
def matchLenGE (a b : MatchResult) : Prop :=
  b.window_text.length ≤ a.window_text.length

instance : DecidableRel matchLenGE := fun a b => by
  unfold matchLenGE
  infer_instance

/-- Model of SubtitleMask._mask_text (subtitle_mask.py lines 137-161). -/
def _mask_text (text : Str) (ms : List MatchResult) : Str :=
  if ms = [] then text
  else
    (List.insertionSort matchLenGE ms).foldl
      (fun masked m => tryPatterns masked [m.window_text, m.term.word]) text

/-- Frame relation of masking: same length, and every position is either the
original character or an asterisk. -/
def maskRel (orig out : Str) : Prop :=
  out.length = orig.length ∧ ∀ i : Nat, out[i]? = orig[i]? ∨ out[i]? = some 42

theorem maskRel_refl (s : Str) : maskRel s s := ⟨rfl, fun _ => Or.inl rfl⟩

theorem maskRel_trans {a b c : Str} (h1 : maskRel a b) (h2 : maskRel b c) :
    maskRel a c := by
  refine ⟨h2.1.trans h1.1, fun i => ?_⟩
  rcases h2.2 i with h | h
  · rw [h]
    exact h1.2 i
  · exact Or.inr h

theorem subnWB_maskRel (pat : Str) :
    ∀ (n : Nat) (prev : Option Nat) (s : Str), s.length ≤ n →
    maskRel s (subnWB pat prev s).1 := by
  intro n
  induction n with
  | zero =>
      intro prev s hs
      have : s = [] := List.eq_nil_of_length_eq_zero (Nat.le_zero.mp hs)
      subst this
      rw [subnWB]
      exact maskRel_refl []
  | succ n ih =>
      intro prev s hs
      match s with
      | [] =>
          rw [subnWB]
          exact maskRel_refl []
      | c :: cs =>
          rw [subnWB]
          by_cases h : matchAt pat prev (c :: cs) = true
          · rw [dif_pos h]
            have hk : pat.length ≤ (c :: cs).length ∧ pat ≠ [] := by
              simp only [matchAt, Bool.and_eq_true, decide_eq_true_eq] at h
              exact ⟨h.1.1.1.2, h.1.1.1.1⟩
            have hdrop : ((c :: cs).drop pat.length).length ≤ n := by
              simp only [List.length_drop, List.length_cons]
              have : 0 < pat.length := List.length_pos.mpr hk.2
              simp only [List.length_cons] at hs
              omega
            have hrec := ih ((c :: cs).take pat.length).getLast?
              ((c :: cs).drop pat.length) hdrop
            constructor
            · simp only [List.length_append, List.length_replicate, hrec.1,
                List.length_drop]
              have := hk.1
              omega
            · intro i
              rw [List.getElem?_append]
              by_cases hi : i < (List.replicate pat.length (42 : Nat)).length
              · rw [if_pos hi, List.getElem?_replicate,
                  if_pos (by simpa using hi)]
                exact Or.inr rfl
              · rw [if_neg hi]
                simp only [List.length_replicate] at hi
                push_neg at hi
                have hshift : (c :: cs)[i]? = ((c :: cs).drop pat.length)[i - pat.length]? := by
                  rw [List.getElem?_drop]
                  congr 1
                  omega
                rw [hshift, List.length_replicate]
                exact hrec.2 (i - pat.length)
          · rw [dif_neg h]
            have hs2 : cs.length ≤ n := by
              simp only [List.length_cons] at hs
              omega
            have hrec := ih (some c) cs hs2
            show maskRel (c :: cs) (c :: (subnWB pat (some c) cs).1)
            refine ⟨?_, ?_⟩
            · simp only [List.length_cons, hrec.1]
            · intro i
              match i with
              | 0 => exact Or.inl (by simp)
              | i + 1 =>
                  simp only [List.getElem?_cons_succ]
                  exact hrec.2 i

theorem tryPatterns_maskRel : ∀ (pats : List Str) (masked : Str),
    maskRel masked (tryPatterns masked pats) := by
  intro pats
  induction pats with
  | nil => intro masked; exact maskRel_refl masked
  | cons pat rest ih =>
      intro masked
      rw [tryPatterns]
      by_cases hp : pat = []
      · rw [if_pos hp]
        exact ih masked
      · rw [if_neg hp]
        have hsub := subnWB_maskRel pat masked.length none masked (le_refl _)
        by_cases hc : 0 < (subnWB pat none masked).2
        · rw [if_pos hc]
          exact hsub
        · rw [if_neg hc]
          exact maskRel_trans hsub (ih (subnWB pat none masked).1)

theorem foldl_mask_maskRel : ∀ (ms : List MatchResult) (text : Str),
    maskRel text (ms.foldl
      (fun masked m => tryPatterns masked [m.window_text, m.term.word]) text) := by
  intro ms
  induction ms with
  | nil => intro text; exact maskRel_refl text
  | cons m ms ih =>
      intro text
      rw [List.foldl_cons]
      exact maskRel_trans
        (tryPatterns_maskRel [m.window_text, m.term.word] text)
        (ih (tryPatterns text [m.window_text, m.term.word]))

/-- C4: masking preserves the exact character length, replaced positions hold
asterisks, and every other position holds the original character. -/
theorem C4_mask_text_frame (text : Str) (ms : List MatchResult) :
    (_mask_text text ms).length = text.length ∧
    ∀ i : Nat, (_mask_text text ms)[i]? = text[i]? ∨
      (_mask_text text ms)[i]? = some 42 := by
  have hrel : maskRel text (_mask_text text ms) := by
    unfold _mask_text
    by_cases hm : ms = []
    · rw [if_pos hm]
      exact maskRel_refl text
    · rw [if_neg hm]
      exact foldl_mask_maskRel (List.insertionSort matchLenGE ms) text
  exact ⟨hrel.1, hrel.2⟩

/- Catalog loading and the masking gate (subtitle_mask.py lines 33-35, 89-115). -/

/-- Model of one parsed catalog entry: a bare word string, or a structured entry
with an optional word, optional threshold and fuzzy_threshold overrides, an
optional variant_strategy string, and an optional aggressive flag
(subtitle_mask.py lines 95-113). -/
inductive ConfigItem where
  | plain (s : Str)
  | obj (word : Option Str) (threshold : Option ℚ) (fuzzy_threshold : Option ℚ)
      (variant_strategy : Option Str) (aggressive : Option Bool)
  deriving DecidableEq

/-- Effective stripped word of an entry (a missing word reads as empty). -/
def itemWord : ConfigItem → Str
  | .plain s => trim s
  | .obj w _ _ _ _ => trim (w.getD [])

/-- Model of SubtitleMask._load_profanity_terms (subtitle_mask.py lines 89-115):
entries with an empty stripped word are dropped silently; threshold falls back
from threshold to fuzzy_threshold to the default; the aggressive flag is the
explicit flag or a variant_strategy equal to aggressive (lowercased). -/
def _load_profanity_terms (items : List ConfigItem) (default_threshold : ℚ) :
    List FuzzyTerm :=
  items.filterMap (fun item =>
    match item with
    | .plain s =>
        if trim s = [] then none
        else some ⟨trim s, default_threshold, false⟩
    | .obj w th fth vs ag =>
        if trim (w.getD []) = [] then none
        else
          some ⟨trim (w.getD []), th.getD (fth.getD default_threshold),
            (ag.getD false || ((vs.getD []).map lowerChar == str ("aggressive")))⟩)

/-- Model of the catalog gate of SubtitleMask.do (subtitle_mask.py lines 33-35):
the masking operation aborts with an error exactly when the loaded catalog is
empty, before any subtitle is processed. -/
def maskingGate (items : List ConfigItem) (default_threshold : ℚ) :
    Except Unit (List FuzzyTerm) :=
  if _load_profanity_terms items default_threshold = [] then Except.error ()
  else Except.ok (_load_profanity_terms items default_threshold)

/-- C8: the masking operation fails if and only if the catalog is empty after
parsing, and an entry with a missing or empty (after trimming) word is dropped
silently, never failing by itself. -/
theorem C8_catalog_gate (items : List ConfigItem) (item : ConfigItem)
    (default_threshold : ℚ) (h : itemWord item = []) :
    (maskingGate items default_threshold = Except.error () ↔
      _load_profanity_terms items default_threshold = []) ∧
    _load_profanity_terms (item :: items) default_threshold =
      _load_profanity_terms items default_threshold := by
  constructor
  · unfold maskingGate
    by_cases h0 : _load_profanity_terms items default_threshold = []
    · simp [h0]
    · simp [h0]
  · unfold _load_profanity_terms
    rw [List.filterMap_cons]
    cases item with
    | plain s =>
        simp only [itemWord] at h
        simp [h]
    | obj w th fth vs ag =>
        simp only [itemWord] at h
        simp [h]

/-- Witness for C8_catalog_gate at the wordless structured entry. -/
theorem C8_catalog_gate_witness :
    itemWord (ConfigItem.obj none none none none none) = [] ∧
    ((maskingGate [] 85 = Except.error () ↔ _load_profanity_terms [] 85 = []) ∧
     _load_profanity_terms [ConfigItem.obj none none none none none] 85 =
       _load_profanity_terms [] 85) :=
  ⟨rfl, C8_catalog_gate [] (ConfigItem.obj none none none none none) 85 rfl⟩
